import Mathlib

/-!
Verification of the tsk calendar browser's event aggregation/filtering
pipeline and presentation state machine, as a shallow embedding of the
Go source (internal/core, internal/adapter/google, internal/tui, cmd).

Time is modelled as `Int`: an instant on a fixed-offset local timeline,
measured in seconds.  All the code under verification manipulates
instants only through comparison (`Before`/`After`), day-granularity
truncation (`time.Date(Year, Month, Day, 0,0,0,0, loc)`), and adding
whole days (`Add(24*time.Hour)`), so a fixed-offset timeline with day
boundaries at multiples of `dayLength` is a faithful model (the Go code
itself walks days by adding exactly 24h, ignoring DST).
-/

namespace Tsk

/-- 24 hours, the day step used by `isEventOnOOODay` (`24 * time.Hour`). -/
def dayLength : Int := 86400

/-- `core.EventStatus` (internal/core, unnamed/part_006). -/
inductive EventStatus where
  | StatusAccepted
  | StatusRejected
  | StatusTentative
  | StatusAwaiting
  | StatusNoResponse
deriving DecidableEq, Repr, Inhabited

/-- `core.EventType` (internal/core, unnamed/part_006). -/
inductive EventType where
  | TypeDefault
  | TypeOutOfOffice
  | TypeFocusTime
  | TypeWorkLocation
deriving DecidableEq, Repr, Inhabited

/-- `core.Calendar`: the calendar an event belongs to. -/
structure Calendar where
  id : String
  name : String
deriving DecidableEq, Repr, Inhabited

/-- `core.CalendarResponse`: one calendar's view of a deduplicated event
(calendar identity, that calendar's response status, that calendar's URL). -/
structure CalendarResponse where
  calendar : Calendar
  status : EventStatus
  url : String
deriving DecidableEq, Repr, Inhabited

/-- `core.Attachment`. -/
structure Attachment where
  id : String
  name : String
  url : String
  mimeType : String
deriving DecidableEq, Repr, Inhabited

/-- `core.Event` (unnamed/part_006): the unified event record.
Go's `End` field is `endTime` (`end` is a Lean keyword). -/
structure Event where
  id : String := ""
  dedupeKey : String := ""
  providerID : String := ""
  calendar : Calendar := default
  calendars : List CalendarResponse := []
  type : EventType := .TypeDefault
  title : String := ""
  description : String := ""
  location : String := ""
  status : EventStatus := .StatusAccepted
  url : String := ""
  meetingLink : String := ""
  attachments : List Attachment := []
  start : Int := 0
  endTime : Int := 0
  isAllDay : Bool := false
  metadata : List (String × String) := []
deriving DecidableEq, Repr, Inhabited

/-- `core.FetchOptions` (internal/core/provider.go). -/
structure FetchOptions where
  start : Int := 0
  endTime : Int := 0
  calendarIDs : List String := []
  includeTypes : List EventType := []
  includeStatuses : List EventStatus := []
  excludeAllDay : Bool := false
deriving DecidableEq, Repr, Inhabited

/-! ## Google adapter: filtering, deduplication, sorting (unnamed/part_004) -/

/-- `containsType` (part_004): linear membership scan. -/
def containsType (types : List EventType) (t : EventType) : Bool :=
  types.any (fun v => v == t)

/-- `containsStatus` (part_004): linear membership scan. -/
def containsStatus (statuses : List EventStatus) (s : EventStatus) : Bool :=
  statuses.any (fun v => v == s)

/-- The per-item body of the page loop in `fetchEventsFromCalendar`
(part_004 lines 207-233): the all-day override for day-spanning timed
events, then the three `continue` filters (type, status, all-day).
Returns `none` when the event is skipped. -/
def processEventItem (opts : FetchOptions) (event : Event) : Option Event :=
  let event :=
    if !event.isAllDay && !(opts.start < event.start) && !(event.endTime < opts.endTime) then
      { event with isAllDay := true }
    else event
  if opts.includeTypes.length > 0 && !containsType opts.includeTypes event.type then
    none
  else if opts.includeStatuses.length > 0 && !containsStatus opts.includeStatuses event.status then
    none
  else if opts.excludeAllDay && event.isAllDay then
    none
  else
    some event

/-- The whole filtering pass of `fetchEventsFromCalendar` over a page of
already-parsed items: keep exactly the items `processEventItem` keeps. -/
def fetchFilterEvents (opts : FetchOptions) (items : List Event) : List Event :=
  items.filterMap (processEventItem opts)

/-- The `core.CalendarResponse` built from an event's own single-calendar
fields, as in both branches of `deduplicateEvents`. -/
def mkCalendarResponse (e : Event) : CalendarResponse :=
  { calendar := e.calendar, status := e.status, url := e.url }

/-- The loop of `deduplicateEvents` (part_004 lines 144-177), with the
Go map `seen : DedupeKey -> index` made explicit as an association list
(the code only inserts a key when lookup fails, so association-list
lookup agrees with Go map lookup). `result` is the accumulator. -/
def dedupGo (seen : List (String × Nat)) (result : List Event) :
    List Event → List Event
  | [] => result
  | event :: rest =>
    if event.dedupeKey = "" then
      -- No dedup key — keep as-is
      dedupGo seen (result ++ [event]) rest
    else
      match seen.lookup event.dedupeKey with
      | some idx =>
        -- Duplicate — merge calendar info into the existing event
        let result :=
          match result[idx]? with
          | some r => result.set idx { r with calendars := r.calendars ++ [mkCalendarResponse event] }
          | none => result
        dedupGo seen result rest
      | none =>
        -- First occurrence — initialize Calendars with this event's own info
        let event := { event with calendars := [mkCalendarResponse event] }
        dedupGo ((event.dedupeKey, result.length) :: seen) (result ++ [event]) rest

/-- `deduplicateEvents` (part_004 lines 144-177, identical copy in
part_005 lines 40-66). -/
def deduplicateEvents (events : List Event) : List Event :=
  dedupGo [] [] events

/-- Does the record carry dedupe key `k`? -/
def hasKey (k : String) (e : Event) : Bool :=
  e.dedupeKey == k

/-- Number of records in `l` whose dedupe key is `k`. -/
def countKey (l : List Event) (k : String) : Nat :=
  (l.filter (hasKey k)).length

/-- Total number of calendar affiliations across all records. -/
def totalAffiliations (l : List Event) : Nat :=
  (l.map (fun e => e.calendars.length)).sum

/-- Inner loop of `sortEventsByStartTime` (part_004 lines 244-252):
`for j := i+1; j < len; j++ { if events[j].Start.Before(events[i].Start)
{ swap } }`.  The Go slice is a list with `set`; `fuel` is the exact
trip count of the bounded `for` loop (the `j < length` guard is kept, so
with enough fuel this is the loop verbatim). -/
def sortInner : Nat → List Event → Nat → Nat → List Event
  | 0, l, _, _ => l
  | fuel + 1, l, i, j =>
    if j < l.length then
      let li := l.getD i default
      let lj := l.getD j default
      let l' := if lj.start < li.start then (l.set i lj).set j li else l
      sortInner fuel l' i (j + 1)
    else l

/-- Outer loop of `sortEventsByStartTime`: `for i := 0; i < len; i++`. -/
def sortOuter : Nat → List Event → Nat → List Event
  | 0, l, _ => l
  | fuel + 1, l, i =>
    if i < l.length then
      sortOuter fuel (sortInner (l.length - (i + 1)) l i (i + 1)) (i + 1)
    else l

/-- `sortEventsByStartTime` (part_004 lines 244-252, identical copy in
part_005 lines 68-76): in-place exchange sort by start instant. -/
def sortEventsByStartTime (events : List Event) : List Event :=
  sortOuter events.length events 0

/-! ## Smart out-of-office suppression (unnamed/part_002) -/

/-- `OOOPeriod` (part_002 lines 800-803). -/
structure OOOPeriod where
  start : Int
  endTime : Int
deriving DecidableEq, Repr, Inhabited

/-- Midnight of the local calendar day containing `t`:
`time.Date(t.Year(), t.Month(), t.Day(), 0,0,0,0, loc)` on the
fixed-offset timeline is flooring to a multiple of `dayLength`. -/
def dayFloor (t : Int) : Int :=
  (Int.fdiv t dayLength) * dayLength

/-- The inner day walk of `isEventOnOOODay` (part_002 lines 913-930):
`current := ooo.Start; for current.Before(end) { dayStart := midnight of
current; dayEnd := dayStart + 24h; if event.Start.Before(dayEnd) &&
event.End.After(dayStart) { return true }; current = current.Add(24h) }`. -/
def oooDayWalk (event : Event) (current endT : Int) : Bool :=
  if _h : current < endT then
    let dayStart := dayFloor current
    let dayEnd := dayStart + dayLength
    if event.start < dayEnd && dayStart < event.endTime then true
    else oooDayWalk event (current + dayLength) endT
  else false
termination_by (endT - current).toNat
decreasing_by
  simp only [dayLength]
  omega

/-- `isEventOnOOODay` (part_002 lines 910-933): does the event overlap
any calendar day touched by any OOO period? -/
def isEventOnOOODay (event : Event) (oooPeriods : List OOOPeriod) : Bool :=
  oooPeriods.any (fun ooo => oooDayWalk event ooo.start ooo.endTime)

/-- `filterEventsOutsideOOO` (part_002 lines 888-907): on OOO days keep
only the primary calendar's out-of-office event itself; on other days
keep everything. -/
def filterEventsOutsideOOO :
    List Event → List OOOPeriod → String → List Event
  | [], _, _ => []
  | event :: rest, oooPeriods, primaryCalendar =>
    if isEventOnOOODay event oooPeriods then
      if event.calendar.id = primaryCalendar && event.type == .TypeOutOfOffice then
        event :: filterEventsOutsideOOO rest oooPeriods primaryCalendar
      else
        filterEventsOutsideOOO rest oooPeriods primaryCalendar
    else
      event :: filterEventsOutsideOOO rest oooPeriods primaryCalendar

/-- `getOOOPeriods` (part_002 lines 848-884).  The adapter call
`adapter.FetchEvents` is external I/O; its outcome is passed in as
`fetchResult`.  An empty primary calendar or a failed fetch yields
`nil` periods; otherwise each fetched OOO event becomes a period. -/
def getOOOPeriods (primaryCalendar : String)
    (fetchResult : Except String (List Event)) : List OOOPeriod :=
  if primaryCalendar = "" then []
  else
    match fetchResult with
    | .error _ => []
    | .ok events => events.map (fun e => { start := e.start, endTime := e.endTime })

/-- The smart-OOO step of `listEvents` (part_002 lines 376-382):
`if len(oooPeriods) > 0 { events = filterEventsOutsideOOO(...) }`. -/
def smartOOOStep (events : List Event) (primaryCalendar : String)
    (fetchResult : Except String (List Event)) : List Event :=
  let oooPeriods := getOOOPeriods primaryCalendar fetchResult
  if oooPeriods.length > 0 then
    filterEventsOutsideOOO events oooPeriods primaryCalendar
  else events

/-! ## Presentation state machine (internal/tui/model.go)

The Bubble Tea model is embedded as an explicit state value; the
wall-clock instant `now` (Go `time.Now()`) is threaded as an explicit
parameter of the message-handling step.  Viewport scroll offsets and
rendered text styling are outside the claims; the list panel's content
is abstracted to the sequence of rendered rows (`ListItem`), which is
what `updateListContent` computes. -/

/-- `PanelFocus` (model.go). -/
inductive PanelFocus where
  | FocusList
  | FocusDetail
deriving DecidableEq, Repr, Inhabited

/-- One row of the list panel as built by `updateListContent`:
the "No events" placeholder, the NOW divider, or the i-th event's row. -/
inductive ListItem where
  | noEvents
  | nowDivider
  | eventItem (idx : Nat)
deriving DecidableEq, Repr, Inhabited

/-- The commands a handler can return (`tea.Cmd`). -/
inductive Cmd where
  | none
  | loadEvents
  | tickCmd
  | quit
  | openURL (url : String)
deriving DecidableEq, Repr, Inhabited

/-- The key actions of `DefaultKeyMap` (model.go). -/
inductive Key where
  | up
  | down
  | scrollUp
  | scrollDown
  | nextDay
  | prevDay
  | today
  | tab
  | forwardDay
  | backDay
  | refresh
  | openLink
  | quitKey
deriving DecidableEq, Repr, Inhabited

/-- The four message shapes handled by `Update` (model.go). -/
inductive Msg where
  | windowSize (width height : Int)
  | eventsLoaded (events : List Event) (err : Option String)
  | tick
  | key (k : Key)
deriving DecidableEq, Repr, Inhabited

/-- `tui.Model` (model.go lines 105-124), restricted to the fields the
message handlers read or write outside the viewports.  `listContent` is
the list panel's rendered rows (the viewport content set by
`updateListContent`). -/
structure Model where
  events : List Event := []
  selectedIdx : Nat := 0
  currentDate : Int := 0
  width : Int := 0
  height : Int := 0
  loading : Bool := true
  err : Option String := Option.none
  listContent : List ListItem := []
  viewportReady : Bool := false
  compactMode : Bool := false
  focusedPanel : PanelFocus := .FocusList
deriving DecidableEq, Repr, Inhabited

/-- `m.currentDate.Year() == now.Year() && ... Month ... && ... Day ...`:
on the fixed-offset timeline, year, month and day all agree exactly when
the two instants fall in the same local calendar day. -/
def sameDay (a b : Int) : Bool :=
  Int.fdiv a dayLength == Int.fdiv b dayLength

/-- The scan in `findNowEventIdx` (model.go lines 156-160): index of the
first non-all-day event whose start is strictly after `now`. -/
def firstFutureTimedIdx (events : List Event) (now : Int) : Option Nat :=
  match events with
  | [] => Option.none
  | e :: rest =>
    if !e.isAllDay && now < e.start then some 0
    else (firstFutureTimedIdx rest now).map (· + 1)

/-- `findNowEventIdx` (model.go lines 141-164). -/
def findNowEventIdx (m : Model) (now : Int) : Nat :=
  if m.events.length = 0 then 0
  else if !sameDay m.currentDate now then 0
  else
    match firstFutureTimedIdx m.events now with
    | some i => i
    | Option.none => m.events.length - 1

/-- The event loop of `updateListContent` (model.go lines 572-584):
walks the events with the running index and the `nowLineAdded` flag,
inserting the NOW divider before the first future timed event.
Returns the rows and the final flag. -/
def listLoop (events : List Event) (i : Nat) (now : Int)
    (isToday : Bool) (nowLineAdded : Bool) : List ListItem × Bool :=
  match events with
  | [] => ([], nowLineAdded)
  | e :: rest =>
    if isToday && !nowLineAdded && !e.isAllDay && now < e.start then
      let (items, flag) := listLoop rest (i + 1) now isToday true
      (.nowDivider :: .eventItem i :: items, flag)
    else
      let (items, flag) := listLoop rest (i + 1) now isToday nowLineAdded
      (.eventItem i :: items, flag)

/-- `updateListContent` (model.go lines 556-605): the rows placed in the
list viewport. -/
def buildListItems (events : List Event) (now currentDate : Int) :
    List ListItem :=
  if events.length = 0 then [.noEvents]
  else
    let isToday := sameDay currentDate now
    let (items, nowLineAdded) := listLoop events 0 now isToday false
    if isToday && !nowLineAdded then
      let hasEndedEvents := events.any (fun e => !e.isAllDay && e.endTime < now)
      if hasEndedEvents || events.length > 0 then items ++ [.nowDivider]
      else items
    else items

/-- Re-render both panels, as `updateListContent` + `updateDetailContent`
do (only the list rows are modelled). -/
def refreshContent (m : Model) (now : Int) : Model :=
  { m with listContent := buildListItems m.events now m.currentDate }

/-- The `tea.KeyMsg` branch of `Update` (model.go lines 368-470). -/
def handleKey (m : Model) (k : Key) (now : Int) : Model × Cmd :=
  match k with
  | .quitKey => (m, .quit)
  | .up =>
    if m.selectedIdx > 0 then
      (refreshContent { m with selectedIdx := m.selectedIdx - 1 } now, .none)
    else (m, .none)
  | .down =>
    if m.selectedIdx < m.events.length - 1 then
      (refreshContent { m with selectedIdx := m.selectedIdx + 1 } now, .none)
    else (m, .none)
  | .scrollUp => (m, .none)
  | .scrollDown => (m, .none)
  | .nextDay =>
    if m.compactMode then ({ m with focusedPanel := .FocusDetail }, .none)
    else ({ m with currentDate := m.currentDate + dayLength, loading := true }, .loadEvents)
  | .prevDay =>
    if m.compactMode then ({ m with focusedPanel := .FocusList }, .none)
    else ({ m with currentDate := m.currentDate - dayLength, loading := true }, .loadEvents)
  | .today =>
    ({ m with currentDate := now, loading := true }, .loadEvents)
  | .tab =>
    if m.focusedPanel = .FocusList then ({ m with focusedPanel := .FocusDetail }, .none)
    else ({ m with focusedPanel := .FocusList }, .none)
  | .forwardDay =>
    ({ m with currentDate := m.currentDate + dayLength, loading := true }, .loadEvents)
  | .backDay =>
    ({ m with currentDate := m.currentDate - dayLength, loading := true }, .loadEvents)
  | .refresh =>
    ({ m with loading := true }, .loadEvents)
  | .openLink =>
    if m.events.length > 0 ∧ m.selectedIdx < m.events.length then
      match m.events[m.selectedIdx]? with
      | some event =>
        if event.meetingLink ≠ "" then (m, .openURL event.meetingLink)
        else (m, .none)
      | Option.none => (m, .none)
    else (m, .none)

/-- `Update` (model.go lines 304-473): the message-handling step. -/
def Update (m : Model) (msg : Msg) (now : Int) : Model × Cmd :=
  match msg with
  | .windowSize w h =>
    let m := { m with width := w, height := h, viewportReady := true,
                      compactMode := w < 70 }
    (refreshContent m now, .none)
  | .eventsLoaded events err =>
    let m := { m with loading := false }
    match err with
    | some e => ({ m with err := some e }, .none)
    | Option.none =>
      let m := { m with events := events }
      let m := { m with selectedIdx := findNowEventIdx m now }
      (refreshContent m now, .none)
  | .tick =>
    (refreshContent m now, .tickCmd)
  | .key k => handleKey m k now

/-! ## Specification-side vocabulary -/

/-- The rows for events `a, a+1, ..., a+n-1`, used to state where the
NOW divider sits inside the rendered list. -/
def eventItems (a n : Nat) : List ListItem :=
  (List.range' a n).map ListItem.eventItem

/-- The selection invariant of the spec: the selection index is within
`[0, len)` whenever the displayed sequence is non-empty. -/
def SelInv (m : Model) : Prop :=
  m.events ≠ [] → m.selectedIdx < m.events.length

/-- Loop invariant of `deduplicateEvents`: after consuming `processed`,
with map state `seen` and accumulator `result` — a key absent from
`seen` has no occurrence yet; a key mapped to `idx` has exactly one
representative in `result`, sitting at `idx`, whose affiliation list
counts the occurrences consumed so far; empty-key records are passed
through verbatim. -/
def DedupInv (processed : List Event) (seen : List (String × Nat))
    (result : List Event) : Prop :=
  (∀ k, k ≠ "" → seen.lookup k = Option.none →
    result.filter (hasKey k) = [] ∧ countKey processed k = 0) ∧
  (∀ k idx, k ≠ "" → seen.lookup k = some idx →
    ∃ r, result[idx]? = some r ∧ result.filter (hasKey k) = [r] ∧
      r.calendars.length = countKey processed k ∧ 0 < countKey processed k) ∧
  result.filter (hasKey "") = processed.filter (hasKey "")

/-- Outer-loop invariant: the prefix `[0, i)` is sorted and dominated
by the suffix `[i, len)`. -/
def Presorted (l : List Event) (i : Nat) : Prop :=
  (∀ p q, p < q → q < i → q < l.length →
    ((l.getD p default).start ≤ (l.getD q default).start)) ∧
  (∀ p k, p < i → i ≤ k → k < l.length →
    ((l.getD p default).start ≤ (l.getD k default).start))

/-! ## Concrete fixtures for witnesses and counterexamples -/

/-- A fetch window covering one day with an empty include-types set. -/
def emptyTypesOpts : FetchOptions :=
  { start := 0, endTime := 86400, includeTypes := [] }

/-- A timed out-of-office event inside the window of `emptyTypesOpts`. -/
def oooWindowEvent : Event :=
  { id := "ooo1", type := .TypeOutOfOffice, start := 3600, endTime := 7200 }

/-- The same invitation seen from calendar A. -/
def evA : Event :=
  { id := "a1", dedupeKey := "a", calendar := ⟨"A", "Cal A"⟩, start := 100, endTime := 200 }

/-- The same invitation seen from calendar B. -/
def evB : Event :=
  { id := "a2", dedupeKey := "a", calendar := ⟨"B", "Cal B"⟩, start := 100, endTime := 200 }

/-- A record with an empty dedupe key. -/
def evNoKey : Event :=
  { id := "c", dedupeKey := "", calendar := ⟨"C", "Cal C"⟩, start := 50, endTime := 60 }

/-- Timed event 9:00-10:00 on day 0. -/
def ev9 : Event := { id := "e9", start := 9 * 3600, endTime := 10 * 3600 }

/-- Timed event 11:00-12:00 on day 0. -/
def ev11 : Event := { id := "e11", start := 11 * 3600, endTime := 12 * 3600 }

/-- Timed event 14:00-15:00 on day 0. -/
def ev14 : Event := { id := "e14", start := 14 * 3600, endTime := 15 * 3600 }

/-- Two events sharing a start instant, distinguished by id. -/
def sortEvX : Event := { id := "x", start := 2 }

/-- Second event with the same start as `sortEvX`. -/
def sortEvY : Event := { id := "y", start := 2 }

/-- An earlier event, placed after the equal pair in the input. -/
def sortEvZ : Event := { id := "z", start := 1 }

/-- A fresh TUI model viewing day 0. -/
def tuiModel0 : Model := { currentDate := 0 }

/-- A TUI model holding three events with the last one selected
(selection index N − 1 = 2). -/
def tuiModel3 : Model :=
  { events := [ev9, ev11, ev14], selectedIdx := 2, currentDate := 0 }

/-! ## List helper lemmas -/

/-- A `some` result of indexing bounds the index. -/
theorem lt_length_of_some {α : Type} {l : List α} {idx : Nat} {r : α}
    (h : l[idx]? = some r) : idx < l.length := by
  by_contra hc
  rw [List.getElem?_eq_none (by omega)] at h
  exact Option.noConfusion h

/-- Setting an index to an element the filter rejects, in place of an
element the filter rejects, leaves the filtered list unchanged. -/
theorem filter_set_of_neg {α : Type} (p : α → Bool) :
    ∀ (l : List α) (idx : Nat) (r x : α), l[idx]? = some r →
      p r = false → p x = false → (l.set idx x).filter p = l.filter p := by
  intro l
  induction l with
  | nil => intro idx r x h; simp at h
  | cons a t ih =>
    intro idx r x h hr hx
    cases idx with
    | zero =>
      simp only [List.getElem?_cons_zero, Option.some.injEq] at h
      rw [List.set_cons_zero, List.filter_cons, List.filter_cons, hx, h, hr]
      simp
    | succ n =>
      simp only [List.getElem?_cons_succ] at h
      rw [List.set_cons_succ, List.filter_cons, List.filter_cons,
        ih n r x h hr hx]

/-- Setting the index of the unique filter survivor to another survivor
replaces it in the filtered list. -/
theorem filter_set_singleton {α : Type} (p : α → Bool) :
    ∀ (l : List α) (idx : Nat) (r x : α), l[idx]? = some r →
      l.filter p = [r] → p x = true → (l.set idx x).filter p = [x] := by
  intro l
  induction l with
  | nil => intro idx r x h; simp at h
  | cons a t ih =>
    intro idx r x h hf hx
    cases idx with
    | zero =>
      simp only [List.getElem?_cons_zero, Option.some.injEq] at h
      have hpa : p a = true := by
        by_contra hc
        rw [Bool.not_eq_true] at hc
        rw [List.filter_cons, if_neg (by simp [hc])] at hf
        have hmem : r ∈ t.filter p := by
          rw [hf]; exact List.mem_singleton.mpr rfl
        have hpr := List.of_mem_filter hmem
        rw [← h, hc] at hpr
        exact Bool.false_ne_true hpr
      rw [List.filter_cons, if_pos hpa] at hf
      injection hf with har htf
      rw [List.set_cons_zero, List.filter_cons, if_pos hx, htf]
    | succ n =>
      simp only [List.getElem?_cons_succ] at h
      have hrt : r ∈ t := List.getElem?_mem h
      rw [List.filter_cons] at hf
      by_cases hpa : p a = true
      · rw [if_pos hpa] at hf
        injection hf with har htf
        have hpr : p r = true := har ▸ hpa
        have hmem : r ∈ t.filter p := List.mem_filter.mpr ⟨hrt, hpr⟩
        rw [htf] at hmem
        exact absurd hmem (List.not_mem_nil r)
      · rw [Bool.not_eq_true] at hpa
        rw [if_neg (by simp [hpa])] at hf
        rw [List.set_cons_succ, List.filter_cons, if_neg (by simp [hpa])]
        exact ih n r x h hf hx

/-- `hasKey` from a disequality of keys. -/
theorem hasKey_eq_false {k : String} {e : Event} (h : e.dedupeKey ≠ k) :
    hasKey k e = false :=
  beq_false_of_ne h

/-- `hasKey` from an equality of keys. -/
theorem hasKey_eq_true {k : String} {e : Event} (h : e.dedupeKey = k) :
    hasKey k e = true := by
  simp [hasKey, h]

/-- The key equality behind a positive `hasKey`. -/
theorem key_of_hasKey {k : String} {e : Event} (h : hasKey k e = true) :
    e.dedupeKey = k := by
  simpa [hasKey] using h

/-- Appending a record with a different key leaves `countKey` alone. -/
theorem countKey_append_one_ne (l : List Event) (e : Event) (k : String)
    (h : e.dedupeKey ≠ k) : countKey (l ++ [e]) k = countKey l k := by
  simp [countKey, List.filter_append, List.filter_cons, hasKey_eq_false h]

/-- Appending a record with key `k` raises `countKey k` by one. -/
theorem countKey_append_one_eq (l : List Event) (e : Event) (k : String)
    (h : e.dedupeKey = k) : countKey (l ++ [e]) k = countKey l k + 1 := by
  simp [countKey, List.filter_append, List.filter_cons, hasKey_eq_true h]

/-- Unfold `lookup` at a matching head. -/
theorem lookup_cons_self (k : String) (v : Nat) (seen : List (String × Nat)) :
    ((k, v) :: seen).lookup k = some v := by
  simp [List.lookup]

/-- Unfold `lookup` at a non-matching head. -/
theorem lookup_cons_ne {a k : String} (v : Nat) (seen : List (String × Nat))
    (h : a ≠ k) : ((k, v) :: seen).lookup a = seen.lookup a := by
  simp [List.lookup, beq_false_of_ne h]

/-! ## Deduplication invariant lemmas -/

/-- The empty state satisfies the dedup invariant. -/
theorem dedupInv_nil : DedupInv [] [] [] := by
  refine ⟨?_, ?_, rfl⟩
  · intro k _ _
    exact ⟨rfl, rfl⟩
  · intro k idx _ h
    simp [List.lookup] at h

/-- Processing a record with an empty dedupe key preserves the
invariant: the record is appended as-is. -/
theorem dedupInv_step_empty {processed : List Event}
    {seen : List (String × Nat)} {result : List Event} (event : Event)
    (inv : DedupInv processed seen result) (hk : event.dedupeKey = "") :
    DedupInv (processed ++ [event]) seen (result ++ [event]) := by
  obtain ⟨hnone, hsome, hfree⟩ := inv
  refine ⟨?_, ?_, ?_⟩
  · intro k hkne hlk
    obtain ⟨h1, h2⟩ := hnone k hkne hlk
    have hne : event.dedupeKey ≠ k := by rw [hk]; exact Ne.symm hkne
    constructor
    · rw [List.filter_append, h1]
      simp [List.filter_cons, hasKey_eq_false hne]
    · rw [countKey_append_one_ne _ _ _ hne, h2]
  · intro k idx hkne hlk
    obtain ⟨r, hget, hfilter, hlen, hpos⟩ := hsome k idx hkne hlk
    have hne : event.dedupeKey ≠ k := by rw [hk]; exact Ne.symm hkne
    refine ⟨r, ?_, ?_, ?_, ?_⟩
    · rw [List.getElem?_append_left (lt_length_of_some hget)]
      exact hget
    · rw [List.filter_append, hfilter]
      simp [List.filter_cons, hasKey_eq_false hne]
    · rw [countKey_append_one_ne _ _ _ hne]
      exact hlen
    · rw [countKey_append_one_ne _ _ _ hne]
      exact hpos
  · rw [List.filter_append, List.filter_append, hfree]

/-- Processing a duplicate (key already in `seen`) preserves the
invariant: the representative's affiliation list grows by one. -/
theorem dedupInv_step_merge {processed : List Event}
    {seen : List (String × Nat)} {result : List Event} (event : Event)
    (idx : Nat) (r : Event) (inv : DedupInv processed seen result)
    (hk : event.dedupeKey ≠ "")
    (hlk : seen.lookup event.dedupeKey = some idx)
    (hget : result[idx]? = some r) :
    DedupInv (processed ++ [event]) seen
      (result.set idx { r with calendars := r.calendars ++ [mkCalendarResponse event] }) := by
  obtain ⟨hnone, hsome, hfree⟩ := inv
  obtain ⟨r0, hget0, hfilter0, hlen0, hpos0⟩ := hsome event.dedupeKey idx hk hlk
  have hrr : r0 = r := by
    rw [hget] at hget0
    injection hget0 with hv
    exact hv.symm
  rw [hrr] at hfilter0 hlen0
  have hkeyr : r.dedupeKey = event.dedupeKey := by
    apply key_of_hasKey
    apply List.of_mem_filter (l := result)
    rw [hfilter0]
    exact List.mem_singleton.mpr rfl
  have hkeyr2 : (({ r with calendars := r.calendars ++ [mkCalendarResponse event] } : Event)).dedupeKey
      = event.dedupeKey := hkeyr
  have hidx : idx < result.length := lt_length_of_some hget
  refine ⟨?_, ?_, ?_⟩
  · intro k hkne hlkk
    obtain ⟨h1, h2⟩ := hnone k hkne hlkk
    have hkk : k ≠ event.dedupeKey := by
      intro hcontra
      rw [hcontra, hlk] at hlkk
      exact Option.noConfusion hlkk
    constructor
    · rw [filter_set_of_neg (hasKey k) result idx r _ hget
        (hasKey_eq_false (by rw [hkeyr]; exact Ne.symm hkk))
        (hasKey_eq_false (by rw [hkeyr2]; exact Ne.symm hkk))]
      exact h1
    · rw [countKey_append_one_ne _ _ _ (fun hc => hkk hc.symm), h2]
  · intro k idx2 hkne hlkk
    by_cases hkk : k = event.dedupeKey
    · have hidx2 : idx2 = idx := by
        rw [hkk, hlk] at hlkk
        injection hlkk with hinj
        exact hinj.symm
      refine ⟨{ r with calendars := r.calendars ++ [mkCalendarResponse event] }, ?_, ?_, ?_, ?_⟩
      · rw [hidx2]
        simp [List.getElem?_set_self, hidx]
      · apply filter_set_singleton (hasKey k) result idx r _ hget
        · rw [hkk]; exact hfilter0
        · exact hasKey_eq_true (by rw [hkeyr2, hkk])
      · rw [countKey_append_one_eq _ _ _ hkk.symm]
        simp only [List.length_append, List.length_cons, List.length_nil]
        rw [hkk]
        omega
      · rw [countKey_append_one_eq _ _ _ hkk.symm]
        omega
    · obtain ⟨r2, hget2, hfilter2, hlen2, hpos2⟩ := hsome k idx2 hkne hlkk
      have hpr : hasKey k r = false :=
        hasKey_eq_false (by rw [hkeyr]; exact Ne.symm hkk)
      have hne : idx2 ≠ idx := by
        intro hcontra
        rw [hcontra, hget] at hget2
        have hr2 : r2 = r := by injection hget2 with hv; exact hv.symm
        have hmem : r2 ∈ result.filter (hasKey k) := by
          rw [hfilter2]; exact List.mem_singleton.mpr rfl
        have hkk2 := List.of_mem_filter hmem
        rw [hr2, hpr] at hkk2
        exact Bool.false_ne_true hkk2
      refine ⟨r2, ?_, ?_, ?_, ?_⟩
      · rw [List.getElem?_set_ne (Ne.symm hne)]
        exact hget2
      · rw [filter_set_of_neg (hasKey k) result idx r _ hget hpr
          (hasKey_eq_false (by rw [hkeyr2]; exact Ne.symm hkk))]
        exact hfilter2
      · rw [countKey_append_one_ne _ _ _ (fun hc => hkk hc.symm)]
        exact hlen2
      · rw [countKey_append_one_ne _ _ _ (fun hc => hkk hc.symm)]
        exact hpos2
  · rw [filter_set_of_neg (hasKey "") result idx r _ hget
      (hasKey_eq_false (by rw [hkeyr]; exact hk))
      (hasKey_eq_false (by rw [hkeyr2]; exact hk))]
    rw [hfree, List.filter_append]
    simp [List.filter_cons, hasKey_eq_false hk]

/-- Processing a first occurrence (key not in `seen`) preserves the
invariant: the record, its affiliation list re-initialized to its own
single affiliation, is appended and the key is recorded. -/
theorem dedupInv_step_first {processed : List Event}
    {seen : List (String × Nat)} {result : List Event} (event : Event)
    (inv : DedupInv processed seen result)
    (hk : event.dedupeKey ≠ "")
    (hlk : seen.lookup event.dedupeKey = Option.none) :
    DedupInv (processed ++ [event])
      ((event.dedupeKey, result.length) :: seen)
      (result ++ [{ event with calendars := [mkCalendarResponse event] }]) := by
  obtain ⟨hnone, hsome, hfree⟩ := inv
  obtain ⟨hfe, hce⟩ := hnone event.dedupeKey hk hlk
  have hkeye : (({ event with calendars := [mkCalendarResponse event] } : Event)).dedupeKey
      = event.dedupeKey := rfl
  refine ⟨?_, ?_, ?_⟩
  · intro k hkne hlkk
    have hkk : k ≠ event.dedupeKey := by
      intro hcontra
      rw [hcontra, lookup_cons_self] at hlkk
      exact Option.noConfusion hlkk
    rw [lookup_cons_ne _ _ hkk] at hlkk
    obtain ⟨h1, h2⟩ := hnone k hkne hlkk
    constructor
    · rw [List.filter_append, h1]
      simp [List.filter_cons,
        hasKey_eq_false (show (({ event with calendars := [mkCalendarResponse event] } : Event)).dedupeKey ≠ k from hkeye ▸ fun hc => hkk hc.symm)]
    · rw [countKey_append_one_ne _ _ _ (fun hc => hkk hc.symm), h2]
  · intro k idx hkne hlkk
    by_cases hkk : k = event.dedupeKey
    · have hidx : idx = result.length := by
        rw [hkk, lookup_cons_self] at hlkk
        injection hlkk with hinj
        exact hinj.symm
      refine ⟨{ event with calendars := [mkCalendarResponse event] }, ?_, ?_, ?_, ?_⟩
      · rw [hidx]
        exact List.getElem?_concat_length result _
      · rw [List.filter_append, hkk, hfe]
        simp [List.filter_cons,
          hasKey_eq_true (show (({ event with calendars := [mkCalendarResponse event] } : Event)).dedupeKey = event.dedupeKey from hkeye)]
      · rw [countKey_append_one_eq _ _ _ hkk.symm, hkk, hce]
        rfl
      · rw [countKey_append_one_eq _ _ _ hkk.symm]
        omega
    · rw [lookup_cons_ne _ _ hkk] at hlkk
      obtain ⟨r2, hget2, hfilter2, hlen2, hpos2⟩ := hsome k idx hkne hlkk
      refine ⟨r2, ?_, ?_, ?_, ?_⟩
      · rw [List.getElem?_append_left (lt_length_of_some hget2)]
        exact hget2
      · rw [List.filter_append, hfilter2]
        simp [List.filter_cons,
          hasKey_eq_false (show (({ event with calendars := [mkCalendarResponse event] } : Event)).dedupeKey ≠ k from hkeye ▸ fun hc => hkk hc.symm)]
      · rw [countKey_append_one_ne _ _ _ (fun hc => hkk hc.symm)]
        exact hlen2
      · rw [countKey_append_one_ne _ _ _ (fun hc => hkk hc.symm)]
        exact hpos2
  · rw [List.filter_append, hfree, List.filter_append]
    simp [List.filter_cons, hasKey_eq_false hk,
      hasKey_eq_false (show (({ event with calendars := [mkCalendarResponse event] } : Event)).dedupeKey ≠ "" from hkeye ▸ hk)]

/-- Running the dedup loop from any state satisfying the invariant
yields a result satisfying the invariant for the whole processed
input (with some final map state). -/
theorem dedupGo_inv :
    ∀ (rest processed : List Event) (seen : List (String × Nat)) (result : List Event),
      DedupInv processed seen result →
      ∃ seen2, DedupInv (processed ++ rest) seen2 (dedupGo seen result rest) := by
  intro rest
  induction rest with
  | nil =>
    intro processed seen result inv
    exact ⟨seen, by simpa [dedupGo] using inv⟩
  | cons event rest ih =>
    intro processed seen result inv
    rw [show processed ++ event :: rest = (processed ++ [event]) ++ rest by simp]
    by_cases hk : event.dedupeKey = ""
    · rw [dedupGo, if_pos hk]
      exact ih (processed ++ [event]) seen (result ++ [event])
        (dedupInv_step_empty event inv hk)
    · rw [dedupGo, if_neg hk]
      cases hlk : seen.lookup event.dedupeKey with
      | some idx =>
        obtain ⟨r, hget, _, _, _⟩ := inv.2.1 event.dedupeKey idx hk hlk
        dsimp only
        rw [hget]
        exact ih (processed ++ [event]) seen _
          (dedupInv_step_merge event idx r inv hk hlk hget)
      | none =>
        exact ih (processed ++ [event]) _ _
          (dedupInv_step_first event inv hk hlk)

/-- Prepending a record never lowers `countKey`. -/
theorem countKey_le_cons (l : List Event) (e : Event) (k : String) :
    countKey l k ≤ countKey (e :: l) k := by
  simp only [countKey, List.filter_cons]
  split <;> simp

/-- `countKey` over a cons with a matching key. -/
theorem countKey_cons_eq (l : List Event) (e : Event) (k : String)
    (h : e.dedupeKey = k) : countKey (e :: l) k = countKey l k + 1 := by
  simp [countKey, List.filter_cons, hasKey_eq_true h]

/-- A member with key `k` makes `countKey k` positive. -/
theorem countKey_pos_of_mem {l : List Event} {e : Event} {k : String}
    (hmem : e ∈ l) (h : e.dedupeKey = k) : 0 < countKey l k := by
  have hf : e ∈ l.filter (hasKey k) := List.mem_filter.mpr ⟨hmem, hasKey_eq_true h⟩
  simp only [countKey]
  exact List.length_pos.mpr (List.ne_nil_of_mem hf)

/-- In the output of `deduplicateEvents`, every non-empty dedupe key
occurs at most once. -/
theorem dedup_countKey_le_one (events : List Event) (k : String)
    (hk : k ≠ "") : countKey (deduplicateEvents events) k ≤ 1 := by
  obtain ⟨seen2, inv⟩ := dedupGo_inv events [] [] [] dedupInv_nil
  rw [List.nil_append] at inv
  obtain ⟨hnone, hsome, _⟩ := inv
  simp only [deduplicateEvents, countKey]
  cases hlk : seen2.lookup k with
  | none =>
    rw [(hnone k hk hlk).1]
    simp
  | some idx =>
    obtain ⟨r, _, hfilter, _, _⟩ := hsome k idx hk hlk
    rw [hfilter]
    simp

/-- If every non-empty key of the input occurs at most once and is
absent from `seen`, the dedup loop appends every record (possibly with
its affiliation list reset) and so preserves the key sequence. -/
theorem dedup_map_key_of_unique :
    ∀ (rest : List Event) (seen : List (String × Nat)) (result : List Event),
      (∀ k, k ≠ "" → countKey rest k ≤ 1) →
      (∀ e, e ∈ rest → e.dedupeKey ≠ "" → seen.lookup e.dedupeKey = Option.none) →
      (dedupGo seen result rest).map (fun e => e.dedupeKey)
        = result.map (fun e => e.dedupeKey) ++ rest.map (fun e => e.dedupeKey) := by
  intro rest
  induction rest with
  | nil =>
    intro seen result _ _
    simp [dedupGo]
  | cons event rest ih =>
    intro seen result hcount hlk
    by_cases hk : event.dedupeKey = ""
    · rw [dedupGo, if_pos hk]
      rw [ih seen (result ++ [event])
        (fun k hkne => le_trans (countKey_le_cons rest event k) (hcount k hkne))
        (fun e he hne => hlk e (List.mem_cons_of_mem event he) hne)]
      simp
    · have hlkE : seen.lookup event.dedupeKey = Option.none :=
        hlk event (List.mem_cons_self event rest) hk
      rw [dedupGo, if_neg hk, hlkE]
      dsimp only
      have hrest0 : countKey rest event.dedupeKey = 0 := by
        have h1 := hcount event.dedupeKey hk
        have h2 := countKey_cons_eq rest event event.dedupeKey rfl
        omega
      have hcount2 : ∀ k2, k2 ≠ "" → countKey rest k2 ≤ 1 :=
        fun k2 hk2 => le_trans (countKey_le_cons rest event k2) (hcount k2 hk2)
      have hlk2 : ∀ e ∈ rest, e.dedupeKey ≠ "" →
          List.lookup e.dedupeKey ((event.dedupeKey, result.length) :: seen)
            = Option.none := by
        intro e he hne
        have hkk : e.dedupeKey ≠ event.dedupeKey := by
          intro hcontra
          have := countKey_pos_of_mem he hcontra
          omega
        rw [lookup_cons_ne _ _ hkk]
        exact hlk e (List.mem_cons_of_mem event he) hne
      have hres := ih ((event.dedupeKey, result.length) :: seen)
        (result ++ [{ event with calendars := [mkCalendarResponse event] }])
        hcount2 hlk2
      rw [hres]
      simp

/-! ## C2: deduplication completeness -/

/-- **C2**: for every input list, each non-empty dedupe key occurring in
the input has exactly one record in the deduplication output, whose
affiliation list length equals the number of input records with that
key; records with an empty dedupe key pass through verbatim, one output
entry per input entry, in input order. -/
theorem c2_dedup_completeness (events : List Event) (k : String)
    (hk : k ≠ "") (hpos : 0 < countKey events k) :
    ((deduplicateEvents events).filter (hasKey k)).length = 1 ∧
    (∀ e, e ∈ (deduplicateEvents events).filter (hasKey k) →
      e.calendars.length = countKey events k) ∧
    (deduplicateEvents events).filter (hasKey "") = events.filter (hasKey "") := by
  obtain ⟨seen2, inv⟩ := dedupGo_inv events [] [] [] dedupInv_nil
  rw [List.nil_append] at inv
  obtain ⟨hnone, hsome, hfree⟩ := inv
  cases hlk : seen2.lookup k with
  | none =>
    obtain ⟨_, h2⟩ := hnone k hk hlk
    omega
  | some idx =>
    obtain ⟨r, hget, hfilter, hlen, _⟩ := hsome k idx hk hlk
    simp only [deduplicateEvents]
    refine ⟨?_, ?_, hfree⟩
    · rw [hfilter]
      rfl
    · intro e he
      rw [hfilter] at he
      rw [List.mem_singleton.mp he]
      exact hlen

/-- Witness for C2 on a concrete input: two copies of the same
invitation (key "a") from two calendars plus a keyless record dedupe to
exactly one "a" record. -/
theorem c2_dedup_completeness_witness :
    ((deduplicateEvents [evA, evB, evNoKey]).filter (hasKey "a")).length = 1 :=
  (c2_dedup_completeness [evA, evB, evNoKey] "a" (by decide) (by decide)).1

/-! ## C3: idempotence of deduplication -/

/-- **C3** (counterexample): applying `deduplicateEvents` to its own
output does not preserve the total affiliation count — two merged
affiliations collapse back to one, because a first occurrence always
re-initializes the `Calendars` list. -/
theorem c3_counterexample_affiliations_not_preserved :
    totalAffiliations (deduplicateEvents [evA, evB]) = 2 ∧
    totalAffiliations (deduplicateEvents (deduplicateEvents [evA, evB])) = 1 := by
  decide

/-- **C3** (amended): applying `deduplicateEvents` to its own output
preserves the exact sequence (hence set and multiset) of dedupe keys;
the total affiliation count, however, is reset per representative, not
preserved (see the counterexample). -/
theorem c3_dedup_self_application_preserves_keys (events : List Event) :
    (deduplicateEvents (deduplicateEvents events)).map (fun e => e.dedupeKey)
      = (deduplicateEvents events).map (fun e => e.dedupeKey) := by
  have h := dedup_map_key_of_unique (deduplicateEvents events) [] []
    (fun k hk => dedup_countKey_le_one events k hk)
    (fun e _ _ => rfl)
  simpa [deduplicateEvents] using h

/-! ## Sorting lemmas -/

/-- `getD` after `set` at a different index. -/
theorem getD_set_ne {l : List Event} {i k : Nat} (x d : Event) (h : i ≠ k) :
    (l.set i x).getD k d = l.getD k d := by
  simp [List.getD_eq_getElem?_getD, List.getElem?_set_ne h]

/-- `getD` after `set` at the same (in-bounds) index. -/
theorem getD_set_eq {l : List Event} {i : Nat} (x d : Event)
    (h : i < l.length) : (l.set i x).getD i d = x := by
  simp [List.getD_eq_getElem?_getD, List.getElem?_set_self, h]

/-- The inner sort loop preserves length. -/
theorem sortInner_length : ∀ (fuel : Nat) (l : List Event) (i j : Nat),
    (sortInner fuel l i j).length = l.length := by
  intro fuel
  induction fuel with
  | zero => intro l i j; rfl
  | succ n ih =>
    intro l i j
    rw [sortInner]
    by_cases h : j < l.length
    · rw [if_pos h]
      dsimp only
      split
      · rw [ih]; simp
      · rw [ih]
    · rw [if_neg h]

/-- The inner sort loop only writes positions `i` and `≥ j`. -/
theorem sortInner_untouched : ∀ (fuel : Nat) (l : List Event) (i j k : Nat),
    k ≠ i → k < j →
    (sortInner fuel l i j).getD k default = l.getD k default := by
  intro fuel
  induction fuel with
  | zero => intro l i j k _ _; rfl
  | succ n ih =>
    intro l i j k hki hkj
    rw [sortInner]
    by_cases h : j < l.length
    · rw [if_pos h]
      dsimp only
      split
      · rw [ih _ i (j+1) k hki (by omega)]
        rw [getD_set_ne _ _ (by omega), getD_set_ne _ _ (fun he => hki he.symm)]
      · exact ih _ i (j+1) k hki (by omega)
    · rw [if_neg h]

/-- After the inner loop (with enough fuel), position `i` holds a
record whose start is minimal among positions `i` and `[j, len)`, and
no later than the record previously at `i`. -/
theorem sortInner_min : ∀ (fuel : Nat) (l : List Event) (i j : Nat),
    i < j → l.length ≤ j + fuel →
    (∀ k, j ≤ k → k < l.length →
      ((sortInner fuel l i j).getD i default).start
        ≤ ((sortInner fuel l i j).getD k default).start) ∧
    ((sortInner fuel l i j).getD i default).start ≤ (l.getD i default).start := by
  intro fuel
  induction fuel with
  | zero =>
    intro l i j hij hfuel
    exact ⟨fun k hk1 hk2 => absurd hk2 (by omega), le_refl _⟩
  | succ n ih =>
    intro l i j hij hfuel
    rw [sortInner]
    by_cases h : j < l.length
    · rw [if_pos h]
      dsimp only
      by_cases hswap : (l.getD j default).start < (l.getD i default).start
      · rw [if_pos hswap]
        set l2 := (l.set i (l.getD j default)).set j (l.getD i default) with hl2
        have hlen2 : l2.length = l.length := by simp [hl2]
        have hi2 : l2.getD i default = l.getD j default := by
          rw [hl2, getD_set_ne _ _ (by omega), getD_set_eq _ _ (by omega)]
        have hj2 : l2.getD j default = l.getD i default := by
          rw [hl2, getD_set_eq _ _ (by simp; omega)]
        obtain ⟨hmin, hle⟩ := ih l2 i (j+1) (by omega) (by omega)
        have hatI : ((sortInner n l2 i (j+1)).getD i default).start
            ≤ (l.getD i default).start := by
          calc ((sortInner n l2 i (j+1)).getD i default).start
              ≤ (l2.getD i default).start := hle
            _ = (l.getD j default).start := by rw [hi2]
            _ ≤ (l.getD i default).start := le_of_lt hswap
        refine ⟨?_, hatI⟩
        intro k hk1 hk2
        by_cases hkj : k = j
        · rw [hkj, sortInner_untouched n l2 i (j+1) j (by omega) (by omega), hj2]
          exact hatI
        · exact hmin k (by omega) (by omega)
      · rw [if_neg hswap]
        obtain ⟨hmin, hle⟩ := ih l i (j+1) (by omega) (by omega)
        refine ⟨?_, hle⟩
        intro k hk1 hk2
        by_cases hkj : k = j
        · rw [hkj, sortInner_untouched n l i (j+1) j (by omega) (by omega)]
          calc ((sortInner n l i (j+1)).getD i default).start
              ≤ (l.getD i default).start := hle
            _ ≤ (l.getD j default).start := le_of_not_lt hswap
        · exact hmin k (by omega) hk2
    · rw [if_neg h]
      exact ⟨fun k hk1 hk2 => absurd (show j < l.length by omega) h, le_refl _⟩

/-- Every position the inner loop may write ends up holding a record
read from a position it may write: `{i} ∪ [j, len)` is mapped into
itself (an image property, enough for sortedness). -/
theorem sortInner_image : ∀ (fuel : Nat) (l : List Event) (i j k : Nat),
    i < j → (k = i ∨ (j ≤ k ∧ k < l.length)) →
    ∃ m, (m = i ∨ (j ≤ m ∧ m < l.length)) ∧
      (sortInner fuel l i j).getD k default = l.getD m default := by
  intro fuel
  induction fuel with
  | zero =>
    intro l i j k hij hk
    exact ⟨k, hk, rfl⟩
  | succ n ih =>
    intro l i j k hij hk
    rw [sortInner]
    by_cases h : j < l.length
    · rw [if_pos h]
      dsimp only
      by_cases hswap : (l.getD j default).start < (l.getD i default).start
      · rw [if_pos hswap]
        set l2 := (l.set i (l.getD j default)).set j (l.getD i default) with hl2
        have hlen2 : l2.length = l.length := by simp [hl2]
        have hi2 : l2.getD i default = l.getD j default := by
          rw [hl2, getD_set_ne _ _ (by omega), getD_set_eq _ _ (by omega)]
        have hj2 : l2.getD j default = l.getD i default := by
          rw [hl2, getD_set_eq _ _ (by simp; omega)]
        have hother : ∀ m2, m2 ≠ i → m2 ≠ j → l2.getD m2 default = l.getD m2 default := by
          intro m2 hm2i hm2j
          rw [hl2, getD_set_ne _ _ (fun he => hm2j he.symm),
            getD_set_ne _ _ (fun he => hm2i he.symm)]
        have step : ∀ k2, (k2 = i ∨ ((j+1) ≤ k2 ∧ k2 < l2.length)) →
            ∃ m, (m = i ∨ (j ≤ m ∧ m < l.length)) ∧
              (sortInner n l2 i (j+1)).getD k2 default = l.getD m default := by
          intro k2 hk2m
          obtain ⟨m2, hm2, heq⟩ := ih l2 i (j+1) k2 (by omega) hk2m
          rcases hm2 with hm2 | ⟨hm2a, hm2b⟩
          · refine ⟨j, Or.inr ⟨by omega, h⟩, ?_⟩
            rw [heq, hm2, hi2]
          · refine ⟨m2, Or.inr ⟨by omega, by omega⟩, ?_⟩
            rw [heq, hother m2 (by omega) (by omega)]
        rcases Nat.lt_trichotomy k j with hkj | hkj | hkj
        · -- k < j: with the membership constraint, k = i
          have hki : k = i := by omega
          exact step k (Or.inl hki)
        · -- k = j: untouched after the swap, holds the old l[i]
          refine ⟨i, Or.inl rfl, ?_⟩
          rw [hkj, sortInner_untouched n l2 i (j+1) j (by omega) (by omega), hj2]
        · -- k > j
          have hkl : k < l2.length := by
            rw [hlen2]; omega
          exact step k (Or.inr ⟨by omega, hkl⟩)
      · rw [if_neg hswap]
        have step : ∀ k2, (k2 = i ∨ ((j+1) ≤ k2 ∧ k2 < l.length)) →
            ∃ m, (m = i ∨ (j ≤ m ∧ m < l.length)) ∧
              (sortInner n l i (j+1)).getD k2 default = l.getD m default := by
          intro k2 hk2m
          obtain ⟨m2, hm2, heq⟩ := ih l i (j+1) k2 (by omega) hk2m
          rcases hm2 with hm2 | ⟨hm2a, hm2b⟩
          · exact ⟨i, Or.inl rfl, by rw [heq, hm2]⟩
          · exact ⟨m2, Or.inr ⟨by omega, hm2b⟩, heq⟩
        rcases Nat.lt_trichotomy k j with hkj | hkj | hkj
        · have hki : k = i := by omega
          exact step k (Or.inl hki)
        · refine ⟨j, Or.inr ⟨le_refl j, h⟩, ?_⟩
          rw [hkj, sortInner_untouched n l i (j+1) j (by omega) (by omega)]
        · exact step k (Or.inr ⟨by omega, by omega⟩)
    · rw [if_neg h]
      rcases hk with hk | ⟨hk1, hk2⟩
      · exact ⟨k, Or.inl hk, rfl⟩
      · exact absurd (show j < l.length by omega) h

/-- The outer loop, run with enough fuel from a presorted state,
produces a pairwise sorted list. -/
theorem sortOuter_sorted : ∀ (fuel : Nat) (l : List Event) (i : Nat),
    l.length ≤ i + fuel → Presorted l i →
    ∀ p q, p < q → q < (sortOuter fuel l i).length →
      (((sortOuter fuel l i).getD p default).start
        ≤ ((sortOuter fuel l i).getD q default).start) := by
  intro fuel
  induction fuel with
  | zero =>
    intro l i hfuel hpre p q hpq hq
    rw [sortOuter] at hq ⊢
    exact hpre.1 p q hpq (by omega) hq
  | succ n ih =>
    intro l i hfuel hpre p q hpq hq
    rw [sortOuter] at hq ⊢
    by_cases h : i < l.length
    · rw [if_pos h] at hq ⊢
      set l2 := sortInner (l.length - (i + 1)) l i (i + 1) with hl2
      have hlen2 : l2.length = l.length := by rw [hl2, sortInner_length]
      have himage : ∀ k, i ≤ k → k < l.length →
          ∃ m, i ≤ m ∧ m < l.length ∧ l2.getD k default = l.getD m default := by
        intro k hk1 hk2
        have hform : k = i ∨ ((i+1) ≤ k ∧ k < l.length) := by omega
        obtain ⟨m, hm, heq⟩ := sortInner_image (l.length - (i + 1)) l i (i+1) k (by omega) hform
        rcases hm with hm | ⟨hm1, hm2⟩
        · exact ⟨i, le_refl i, h, by rw [heq, hm]⟩
        · exact ⟨m, by omega, hm2, heq⟩
      obtain ⟨hmin, _⟩ := sortInner_min (l.length - (i + 1)) l i (i+1) (by omega) (by omega)
      have hpre2 : Presorted l2 (i + 1) := by
        constructor
        · intro p2 q2 hp2q2 hq2i hq2len
          by_cases hq2 : q2 = i
          · rw [hq2, sortInner_untouched _ l i (i+1) p2 (by omega) (by omega)]
            obtain ⟨m, hm1, hm2, heq⟩ := himage i (le_refl i) h
            rw [heq]
            exact hpre.2 p2 m (by omega) hm1 hm2
          · rw [sortInner_untouched _ l i (i+1) p2 (by omega) (by omega),
              sortInner_untouched _ l i (i+1) q2 (by omega) (by omega)]
            exact hpre.1 p2 q2 hp2q2 (by omega) (by omega)
        · intro p2 k hp2 hk1 hk2
          rw [hlen2] at hk2
          by_cases hp2i : p2 = i
          · rw [hp2i]
            exact hmin k hk1 hk2
          · rw [sortInner_untouched _ l i (i+1) p2 (by omega) (by omega)]
            obtain ⟨m, hm1, hm2, heq⟩ := himage k (by omega) hk2
            rw [heq]
            exact hpre.2 p2 m (by omega) hm1 hm2
      exact ih l2 (i+1) (by omega) hpre2 p q hpq hq
    · rw [if_neg h] at hq ⊢
      exact hpre.1 p q hpq (by omega) hq

/-! ## C7: sort order and (non-)stability -/

/-- **C7** (counterexample): the exchange sort is not stable — two
records with equal starts ("x" before "y" in the input) come out in the
opposite relative order once a later, earlier-starting record forces a
swap. -/
theorem c7_counterexample_not_stable :
    sortEvX.start = sortEvY.start ∧
    sortEventsByStartTime [sortEvX, sortEvY, sortEvZ]
      = [sortEvZ, sortEvY, sortEvX] := by
  constructor
  · rfl
  · decide

/-- **C7** (amended): every output of `sortEventsByStartTime` is sorted
by start instant — each adjacent pair satisfies `a.start ≤ b.start` —
but records with equal starts may appear in either relative order (the
swap-based selection sort is not stable; see the counterexample). -/
theorem c7_sorted_adjacent (events : List Event) (k : Nat)
    (h : k + 1 < (sortEventsByStartTime events).length) :
    ((sortEventsByStartTime events).getD k default).start
      ≤ ((sortEventsByStartTime events).getD (k + 1) default).start := by
  have hpre : Presorted events 0 :=
    ⟨fun p q _ hq _ => absurd hq (by omega), fun p k2 hp _ _ => absurd hp (by omega)⟩
  exact sortOuter_sorted events.length events 0 (by omega) hpre k (k+1) (by omega) h

/-- Witness for C7 on a concrete input. -/
theorem c7_sorted_adjacent_witness :
    ((sortEventsByStartTime [sortEvX, sortEvY, sortEvZ]).getD 0 default).start
      ≤ ((sortEventsByStartTime [sortEvX, sortEvY, sortEvZ]).getD 1 default).start :=
  c7_sorted_adjacent [sortEvX, sortEvY, sortEvZ] 0 (by decide)

/-! ## C1: empty include-types set -/

/-- **C1** (code-bug evidence): with an empty include-types set the
per-event fetch filter performs no type filtering at all, so a
non-default (out-of-office) event inside the window is returned —
contradicting the claim, and the `FetchOptions.IncludeTypes` doc
comment in internal/core/provider.go, that an empty set means "default
type only". -/
theorem c1_empty_includeTypes_admits_nondefault :
    emptyTypesOpts.includeTypes = [] ∧
    oooWindowEvent.type ≠ EventType.TypeDefault ∧
    fetchFilterEvents emptyTypesOpts [oooWindowEvent] = [oooWindowEvent] := by
  decide

/-! ## C8: whole-window fetch failure -/

/-- **C8**: handling a fetch-completion that carries an error records
the error and ends loading, while the displayed event sequence, the
selection index, the viewed day and the rendered list rows are exactly
as they were before the message. -/
theorem c8_fetch_error_retains_state (m : Model) (events : List Event)
    (e : String) (now : Int) :
    (Update m (.eventsLoaded events (some e)) now).1.err = some e ∧
    (Update m (.eventsLoaded events (some e)) now).1.loading = false ∧
    (Update m (.eventsLoaded events (some e)) now).1.events = m.events ∧
    (Update m (.eventsLoaded events (some e)) now).1.selectedIdx = m.selectedIdx ∧
    (Update m (.eventsLoaded events (some e)) now).1.currentDate = m.currentDate ∧
    (Update m (.eventsLoaded events (some e)) now).1.listContent = m.listContent :=
  ⟨rfl, rfl, rfl, rfl, rfl, rfl⟩

/-! ## C9: tick is render-only -/

/-- **C9**: handling a tick never issues a fetch — the returned command
is the next tick, not `loadEvents` — and leaves the event sequence, the
selection index, the viewed day, the loading flag and the error field
unchanged; only the rendered (time-relative) list content is
recomputed. -/
theorem c9_tick_only_rerenders (m : Model) (now : Int) :
    (Update m .tick now).2 = Cmd.tickCmd ∧
    (Update m .tick now).2 ≠ Cmd.loadEvents ∧
    (Update m .tick now).1.events = m.events ∧
    (Update m .tick now).1.selectedIdx = m.selectedIdx ∧
    (Update m .tick now).1.currentDate = m.currentDate ∧
    (Update m .tick now).1.loading = m.loading ∧
    (Update m .tick now).1.err = m.err ∧
    (Update m .tick now).1.listContent = buildListItems m.events now m.currentDate :=
  ⟨rfl, fun h => Cmd.noConfusion h, rfl, rfl, rfl, rfl, rfl, rfl⟩

/-! ## C10: failed or unresolvable OOO fetch silently skips suppression -/

/-- **C10**: when fetching the out-of-office events fails, or the
primary calendar is empty/unresolvable, `getOOOPeriods` returns the
empty period list and the smart out-of-office pass is skipped: every
event passes through unchanged and no error is surfaced (the period
list is the only output). -/
theorem c10_ooo_failure_skips_suppression (events : List Event)
    (primaryCalendar errmsg : String) (r : Except String (List Event)) :
    getOOOPeriods primaryCalendar (.error errmsg) = [] ∧
    smartOOOStep events primaryCalendar (.error errmsg) = events ∧
    getOOOPeriods "" r = [] ∧
    smartOOOStep events "" r = events ∧
    smartOOOStep events primaryCalendar (.ok []) = events := by
  have h1 : getOOOPeriods primaryCalendar (.error errmsg) = [] := by
    unfold getOOOPeriods; split <;> rfl
  have h2 : getOOOPeriods primaryCalendar (Except.ok ([] : List Event)) = [] := by
    unfold getOOOPeriods; split <;> simp
  refine ⟨h1, ?_, ?_, ?_, ?_⟩
  · simp [smartOOOStep, h1]
  · simp [getOOOPeriods]
  · simp [smartOOOStep, getOOOPeriods]
  · simp [smartOOOStep, h2]

/-! ## NOW-marker and list-content lemmas -/

/-- `eventItems` at zero. -/
theorem eventItems_zero (a : Nat) : eventItems a 0 = [] := rfl

/-- `eventItems` unfolds one row at a time. -/
theorem eventItems_succ (a n : Nat) :
    eventItems a (n + 1) = ListItem.eventItem a :: eventItems (a + 1) n := by
  simp [eventItems, List.range'_succ]

/-- Once the NOW divider has been emitted, the loop just renders rows. -/
theorem listLoop_added : ∀ (es : List Event) (i : Nat) (now : Int)
    (isToday : Bool), listLoop es i now isToday true = (eventItems i es.length, true) := by
  intro es
  induction es with
  | nil => intro i now isToday; rfl
  | cons e rest ih =>
    intro i now isToday
    rw [listLoop]
    simp only [Bool.not_true, Bool.and_false, Bool.false_and,
      Bool.false_eq_true, if_false, ih, eventItems_succ, List.length_cons]

/-- On a day other than today the loop just renders rows. -/
theorem listLoop_notToday : ∀ (es : List Event) (i : Nat) (now : Int)
    (b : Bool), listLoop es i now false b = (eventItems i es.length, b) := by
  intro es
  induction es with
  | nil => intro i now b; rfl
  | cons e rest ih =>
    intro i now b
    rw [listLoop]
    simp only [Bool.false_and, Bool.false_eq_true, if_false, ih,
      eventItems_succ, List.length_cons]

/-- A found first-future index is in range. -/
theorem firstFutureTimedIdx_lt : ∀ (es : List Event) (now : Int) (j : Nat),
    firstFutureTimedIdx es now = some j → j < es.length := by
  intro es
  induction es with
  | nil => intro now j h; exact Option.noConfusion h
  | cons e rest ih =>
    intro now j h
    rw [firstFutureTimedIdx] at h
    by_cases hc : (!e.isAllDay && decide (now < e.start)) = true
    · rw [if_pos hc] at h
      have hj : 0 = j := by simpa using h
      simp [← hj]
    · rw [if_neg hc] at h
      cases hrest : firstFutureTimedIdx rest now with
      | none => rw [hrest] at h; exact Option.noConfusion h
      | some j2 =>
        rw [hrest] at h
        have hj : j2 + 1 = j := by simpa using h
        have := ih now j2 hrest
        simp [← hj]
        omega

/-- The scan returns the first index holding a non-all-day event whose
start is strictly after `now`. -/
theorem firstFutureTimedIdx_spec : ∀ (es : List Event) (now : Int) (j : Nat),
    firstFutureTimedIdx es now = some j →
    (∃ e, es[j]? = some e ∧ e.isAllDay = false ∧ now < e.start) ∧
    (∀ (i2 : Nat) (e2 : Event), i2 < j → es[i2]? = some e2 →
      e2.isAllDay = false → e2.start ≤ now) := by
  intro es
  induction es with
  | nil => intro now j h; exact Option.noConfusion h
  | cons e rest ih =>
    intro now j h
    rw [firstFutureTimedIdx] at h
    by_cases hc : (!e.isAllDay && decide (now < e.start)) = true
    · rw [if_pos hc] at h
      have hj : 0 = j := by simpa using h
      simp only [Bool.and_eq_true, Bool.not_eq_true', decide_eq_true_eq] at hc
      refine ⟨⟨e, by rw [← hj]; simp, hc.1, hc.2⟩, ?_⟩
      intro i2 e2 hi2 _ _
      omega
    · rw [if_neg hc] at h
      cases hrest : firstFutureTimedIdx rest now with
      | none => rw [hrest] at h; exact Option.noConfusion h
      | some j2 =>
        rw [hrest] at h
        have hj : j2 + 1 = j := by simpa using h
        obtain ⟨⟨e3, hget3, hall3, hstart3⟩, hless⟩ := ih now j2 hrest
        simp only [Bool.and_eq_true, Bool.not_eq_true', decide_eq_true_eq,
          not_and, Bool.not_eq_false] at hc
        constructor
        · exact ⟨e3, by rw [← hj]; simpa using hget3, hall3, hstart3⟩
        · intro i2 e2 hi2 hget2 hall2
          cases i2 with
          | zero =>
            simp only [List.getElem?_cons_zero, Option.some.injEq] at hget2
            rw [← hget2] at hall2
            have := hc hall2
            rw [← hget2]
            omega
          | succ n =>
            simp only [List.getElem?_cons_succ] at hget2
            exact hless n e2 (by omega) hget2 hall2

/-- When no event is a future timed event, the scan reports none and
indeed every non-all-day event has already started (or is not after
`now`). -/
theorem firstFutureTimedIdx_none_spec : ∀ (es : List Event) (now : Int),
    firstFutureTimedIdx es now = Option.none →
    ∀ (i2 : Nat) (e2 : Event), es[i2]? = some e2 →
      e2.isAllDay = false → e2.start ≤ now := by
  intro es
  induction es with
  | nil => intro now _ i2 e2 hget; simp at hget
  | cons e rest ih =>
    intro now h i2 e2 hget hall
    rw [firstFutureTimedIdx] at h
    by_cases hc : (!e.isAllDay && decide (now < e.start)) = true
    · rw [if_pos hc] at h
      exact Option.noConfusion h
    · rw [if_neg hc] at h
      simp only [Bool.and_eq_true, Bool.not_eq_true', decide_eq_true_eq,
        not_and, Bool.not_eq_false] at hc
      cases i2 with
      | zero =>
        simp only [List.getElem?_cons_zero, Option.some.injEq] at hget
        rw [← hget] at hall
        have := hc hall
        rw [← hget]
        omega
      | succ n =>
        simp only [List.getElem?_cons_succ] at hget
        cases hrest : firstFutureTimedIdx rest now with
        | none => exact ih now hrest n e2 hget hall
        | some j2 => rw [hrest] at h; simp at h

/-- The loop inserts the NOW divider exactly before the first future
timed event. -/
theorem listLoop_today_found : ∀ (es : List Event) (i : Nat) (now : Int)
    (j : Nat), firstFutureTimedIdx es now = some j →
    listLoop es i now true false
      = (eventItems i j ++ ListItem.nowDivider :: eventItems (i + j) (es.length - j), true) := by
  intro es
  induction es with
  | nil => intro i now j h; exact Option.noConfusion h
  | cons e rest ih =>
    intro i now j h
    rw [firstFutureTimedIdx] at h
    rw [listLoop]
    by_cases hc : (!e.isAllDay && decide (now < e.start)) = true
    · rw [if_pos hc] at h
      have hj : 0 = j := by simpa using h
      rw [if_pos (by simp [hc])]
      rw [listLoop_added]
      rw [← hj]
      simp [eventItems_succ, eventItems_zero]
    · rw [if_neg hc] at h
      cases hrest : firstFutureTimedIdx rest now with
      | none => rw [hrest] at h; exact Option.noConfusion h
      | some j2 =>
        rw [hrest] at h
        have hj : j2 + 1 = j := by simpa using h
        rw [if_neg (by simp [hc])]
        rw [ih (i+1) now j2 hrest]
        rw [← hj]
        have harith1 : i + (j2 + 1) = (i + 1) + j2 := by omega
        have harith2 : (e :: rest).length - (j2 + 1) = rest.length - j2 := by
          simp
        rw [eventItems_succ, harith1, harith2]
        rfl

/-- With no future timed event the loop renders all rows and never
emits the divider. -/
theorem listLoop_today_none : ∀ (es : List Event) (i : Nat) (now : Int),
    firstFutureTimedIdx es now = Option.none →
    listLoop es i now true false = (eventItems i es.length, false) := by
  intro es
  induction es with
  | nil => intro i now _; rfl
  | cons e rest ih =>
    intro i now h
    rw [firstFutureTimedIdx] at h
    rw [listLoop]
    by_cases hc : (!e.isAllDay && decide (now < e.start)) = true
    · rw [if_pos hc] at h
      exact Option.noConfusion h
    · rw [if_neg hc] at h
      cases hrest : firstFutureTimedIdx rest now with
      | some j2 => rw [hrest] at h; simp at h
      | none =>
        rw [if_neg (by simp [hc])]
        rw [ih (i+1) now hrest]
        simp [eventItems_succ]

/-- `updateListContent` when viewing today with an upcoming timed
event: the divider sits immediately before row `j`. -/
theorem buildListItems_today_found (events : List Event)
    (now currentDate : Int) (j : Nat) (hne : events ≠ [])
    (htoday : sameDay currentDate now = true)
    (hfirst : firstFutureTimedIdx events now = some j) :
    buildListItems events now currentDate
      = eventItems 0 j ++ ListItem.nowDivider :: eventItems j (events.length - j) := by
  rw [buildListItems, if_neg (by simpa using hne)]
  dsimp only
  rw [htoday, listLoop_today_found events 0 now j hfirst]
  simp

/-- `updateListContent` when viewing today with no upcoming timed
event: the divider is appended at the end. -/
theorem buildListItems_today_none (events : List Event)
    (now currentDate : Int) (hne : events ≠ [])
    (htoday : sameDay currentDate now = true)
    (hfirst : firstFutureTimedIdx events now = Option.none) :
    buildListItems events now currentDate
      = eventItems 0 events.length ++ [ListItem.nowDivider] := by
  rw [buildListItems, if_neg (by simpa using hne)]
  dsimp only
  rw [htoday, listLoop_today_none events 0 now hfirst]
  have hlen : 0 < events.length := List.length_pos.mpr hne
  simp [hlen]

/-- `updateListContent` on a day other than today: no divider. -/
theorem buildListItems_notToday (events : List Event)
    (now currentDate : Int) (hne : events ≠ [])
    (hnot : sameDay currentDate now = false) :
    buildListItems events now currentDate = eventItems 0 events.length := by
  rw [buildListItems, if_neg (by simpa using hne)]
  dsimp only
  rw [hnot, listLoop_notToday]
  simp

/-- `findNowEventIdx` picks the first future timed event on today. -/
theorem findNowEventIdx_eq_first (m : Model) (now : Int) (j : Nat)
    (hne : m.events ≠ []) (ht : sameDay m.currentDate now = true)
    (hf : firstFutureTimedIdx m.events now = some j) :
    findNowEventIdx m now = j := by
  rw [findNowEventIdx, if_neg (by simpa using hne), ht]
  simp only [Bool.not_true, Bool.false_eq_true, if_false]
  rw [hf]

/-- `findNowEventIdx` falls back to the last index on today when no
future timed event exists. -/
theorem findNowEventIdx_eq_last (m : Model) (now : Int)
    (hne : m.events ≠ []) (ht : sameDay m.currentDate now = true)
    (hf : firstFutureTimedIdx m.events now = Option.none) :
    findNowEventIdx m now = m.events.length - 1 := by
  rw [findNowEventIdx, if_neg (by simpa using hne), ht]
  simp only [Bool.not_true, Bool.false_eq_true, if_false]
  rw [hf]

/-- `findNowEventIdx` is 0 on other days. -/
theorem findNowEventIdx_eq_zero (m : Model) (now : Int)
    (hnot : sameDay m.currentDate now = false) :
    findNowEventIdx m now = 0 := by
  rw [findNowEventIdx]
  by_cases h : m.events.length = 0
  · rw [if_pos h]
  · rw [if_neg h, hnot]
    simp

/-- `findNowEventIdx` always lands inside a non-empty sequence. -/
theorem findNowEventIdx_lt (m : Model) (now : Int) (hne : m.events ≠ []) :
    findNowEventIdx m now < m.events.length := by
  have hlen : 0 < m.events.length := List.length_pos.mpr hne
  rw [findNowEventIdx, if_neg (by omega)]
  cases ht : sameDay m.currentDate now with
  | false => simpa using hlen
  | true =>
    simp only [Bool.not_true, Bool.false_eq_true, if_false]
    cases hf : firstFutureTimedIdx m.events now with
    | none =>
      show m.events.length - 1 < m.events.length
      omega
    | some j =>
      show j < m.events.length
      exact firstFutureTimedIdx_lt m.events now j hf

/-! ## C5: NOW marker placement and default selection -/

/-- **C5**: after a successful fetch, when the viewed day is today the
NOW marker row sits immediately before the first non-all-day event
whose start is strictly after the current instant (at the end of the
list when no such event exists), and the default selection is exactly
that event's index; when the viewed day is not today, no marker is
rendered and the selection defaults to index 0.  The scan really
returns the first future timed event: the event at the returned index
is timed and starts strictly after `now`, and every earlier timed event
starts at or before `now`. -/
theorem c5_now_marker_and_selection (m : Model) (events : List Event)
    (now : Int) (hne : events ≠ []) :
    (sameDay m.currentDate now = true →
      (∀ j, firstFutureTimedIdx events now = some j →
        (Update m (.eventsLoaded events Option.none) now).1.listContent
          = eventItems 0 j ++ ListItem.nowDivider :: eventItems j (events.length - j) ∧
        (Update m (.eventsLoaded events Option.none) now).1.selectedIdx = j) ∧
      (firstFutureTimedIdx events now = Option.none →
        (Update m (.eventsLoaded events Option.none) now).1.listContent
          = eventItems 0 events.length ++ [ListItem.nowDivider])) ∧
    (sameDay m.currentDate now = false →
      (Update m (.eventsLoaded events Option.none) now).1.listContent
        = eventItems 0 events.length ∧
      (Update m (.eventsLoaded events Option.none) now).1.selectedIdx = 0) ∧
    (∀ j, firstFutureTimedIdx events now = some j →
      (∃ e, events[j]? = some e ∧ e.isAllDay = false ∧ now < e.start) ∧
      (∀ (i2 : Nat) (e2 : Event), i2 < j → events[i2]? = some e2 →
        e2.isAllDay = false → e2.start ≤ now)) ∧
    (firstFutureTimedIdx events now = Option.none →
      ∀ (i2 : Nat) (e2 : Event), events[i2]? = some e2 →
        e2.isAllDay = false → e2.start ≤ now) := by
  have hlist : (Update m (.eventsLoaded events Option.none) now).1.listContent
      = buildListItems events now m.currentDate := rfl
  have hsel : (Update m (.eventsLoaded events Option.none) now).1.selectedIdx
      = findNowEventIdx { m with loading := false, events := events } now := rfl
  refine ⟨?_, ?_, ?_, ?_⟩
  · intro ht
    constructor
    · intro j hj
      constructor
      · rw [hlist]
        exact buildListItems_today_found events now m.currentDate j hne ht hj
      · rw [hsel]
        exact findNowEventIdx_eq_first _ now j hne ht hj
    · intro hj
      rw [hlist]
      exact buildListItems_today_none events now m.currentDate hne ht hj
  · intro ht
    constructor
    · rw [hlist]
      exact buildListItems_notToday events now m.currentDate hne ht
    · rw [hsel]
      exact findNowEventIdx_eq_zero _ now ht
  · intro j hj
    exact firstFutureTimedIdx_spec events now j hj
  · intro hj
    exact firstFutureTimedIdx_none_spec events now hj

/-- Witness for C5 on the spec's own vector: events at 9:00, 11:00 and
14:00 on the viewed (current) day, wall clock 11:30 — the marker sits
between the 11:00 and 14:00 rows, and the 14:00 event (index 2) is
selected. -/
theorem c5_now_marker_and_selection_witness :
    (Update tuiModel0 (.eventsLoaded [ev9, ev11, ev14] Option.none) 41400).1.listContent
      = eventItems 0 2 ++ ListItem.nowDivider :: eventItems 2 1 ∧
    (Update tuiModel0 (.eventsLoaded [ev9, ev11, ev14] Option.none) 41400).1.selectedIdx = 2 :=
  ((c5_now_marker_and_selection tuiModel0 [ev9, ev11, ev14] 41400
    (by decide)).1 (by decide)).1 2 (by decide)

/-! ## C6: selection bounds and shrink behavior -/

/-- Every message handler keeps the selection inside `[0, len)` for a
non-empty sequence. -/
theorem update_preserves_selInv (m : Model) (msg : Msg) (now : Int)
    (hinv : SelInv m) : SelInv (Update m msg now).1 := by
  cases msg with
  | windowSize w h => exact fun hne => hinv hne
  | tick => exact fun hne => hinv hne
  | eventsLoaded events err =>
    cases err with
    | some e => exact fun hne => hinv hne
    | none =>
      intro hne
      exact findNowEventIdx_lt { m with loading := false, events := events } now hne
  | key k =>
    cases k with
    | up =>
      simp only [Update, handleKey]
      by_cases h : m.selectedIdx > 0
      · rw [if_pos h]
        intro hne
        have h2 := hinv hne
        show m.selectedIdx - 1 < m.events.length
        omega
      · rw [if_neg h]
        exact fun hne => hinv hne
    | down =>
      simp only [Update, handleKey]
      by_cases h : m.selectedIdx < m.events.length - 1
      · rw [if_pos h]
        intro hne
        show m.selectedIdx + 1 < m.events.length
        omega
      · rw [if_neg h]
        exact fun hne => hinv hne
    | scrollUp => exact fun hne => hinv hne
    | scrollDown => exact fun hne => hinv hne
    | nextDay =>
      simp only [Update, handleKey]
      by_cases h : m.compactMode
      · rw [if_pos h]
        exact fun hne => hinv hne
      · rw [if_neg h]
        exact fun hne => hinv hne
    | prevDay =>
      simp only [Update, handleKey]
      by_cases h : m.compactMode
      · rw [if_pos h]
        exact fun hne => hinv hne
      · rw [if_neg h]
        exact fun hne => hinv hne
    | today => exact fun hne => hinv hne
    | tab =>
      simp only [Update, handleKey]
      by_cases h : m.focusedPanel = PanelFocus.FocusList
      · rw [if_pos h]
        exact fun hne => hinv hne
      · rw [if_neg h]
        exact fun hne => hinv hne
    | forwardDay => exact fun hne => hinv hne
    | backDay => exact fun hne => hinv hne
    | refresh => exact fun hne => hinv hne
    | openLink =>
      simp only [Update, handleKey]
      split
      · split
        · split
          · exact fun hne => hinv hne
          · exact fun hne => hinv hne
        · exact fun hne => hinv hne
      · exact fun hne => hinv hne
    | quitKey => exact fun hne => hinv hne

/-- **C6** (amended): the selection index is always within `[0, len)`
when the displayed sequence is non-empty — every handler preserves
this — and on a fetch completion the index is recomputed from the new
sequence by the now-marker rule: it is 0 for an empty new sequence,
always in range, and equals M − 1 exactly when viewing today with no
upcoming timed event; it is not in general the clamped old index. -/
theorem c6_selection_invariant_and_refetch (m : Model) (msg : Msg)
    (now : Int) (hinv : SelInv m) :
    SelInv (Update m msg now).1 ∧
    (∀ events, (Update m (.eventsLoaded events Option.none) now).1.selectedIdx
      = findNowEventIdx { m with loading := false, events := events } now) ∧
    ((Update m (.eventsLoaded ([] : List Event) Option.none) now).1.selectedIdx = 0) ∧
    (∀ events, events ≠ [] → sameDay m.currentDate now = true →
      firstFutureTimedIdx events now = Option.none →
      (Update m (.eventsLoaded events Option.none) now).1.selectedIdx
        = events.length - 1) := by
  refine ⟨update_preserves_selInv m msg now hinv, fun events => rfl, rfl, ?_⟩
  intro events hne ht hf
  exact findNowEventIdx_eq_last { m with loading := false, events := events } now hne ht hf

/-- Witness for C6 at a concrete shrink: three events selected at index
2, refetch returns two events on a non-current day; the new selection
is recomputed by the marker rule. -/
theorem c6_selection_invariant_and_refetch_witness :
    (Update tuiModel3 (.eventsLoaded [ev9, ev11] Option.none) (5 * 86400)).1.selectedIdx
      = findNowEventIdx { tuiModel3 with loading := false, events := [ev9, ev11] } (5 * 86400) :=
  (c6_selection_invariant_and_refetch tuiModel3
    (.eventsLoaded [ev9, ev11] Option.none) (5 * 86400)
    (fun _ => by decide)).2.1 [ev9, ev11]

/-- **C6** (counterexample): the sequence shrinks from N = 3 to M = 2
while the selection index was N − 1 = 2, yet the post-update selection
index is 0, not M − 1 = 1 — on fetch completion the index is recomputed
from scratch (here: not today, so index 0), not clamped to the end. -/
theorem c6_counterexample_selection_not_clamped_to_last :
    tuiModel3.events.length = 3 ∧ tuiModel3.selectedIdx = 3 - 1 ∧
    (Update tuiModel3 (.eventsLoaded [ev9, ev11] Option.none) (5 * 86400)).1.events.length = 2 ∧
    (Update tuiModel3 (.eventsLoaded [ev9, ev11] Option.none) (5 * 86400)).1.selectedIdx = 0 ∧
    ¬ (Update tuiModel3 (.eventsLoaded [ev9, ev11] Option.none) (5 * 86400)).1.selectedIdx = 2 - 1 := by
  decide


/-! ## Out-of-office day-walk lemmas -/

/-- `dayFloor` in terms of Euclidean division (the divisor is
positive, so flooring and Euclidean division agree). -/
theorem dayFloor_eq (t : Int) : dayFloor t = (t / 86400) * 86400 := by
  simp only [dayFloor, dayLength,
    Int.fdiv_eq_ediv _ (by norm_num : (0 : Int) ≤ 86400)]

/-- Stepping one day forward moves the day floor one day forward. -/
theorem dayFloor_add_day (t : Int) :
    dayFloor (t + dayLength) = dayFloor t + dayLength := by
  rw [dayFloor_eq, dayFloor_eq]
  simp only [dayLength]
  omega

/-- The day walk of `isEventOnOOODay`, characterized: it reports an
overlap exactly when some walked day — day `i` of the period, starting
at the local midnight `dayFloor current + i·day`, walked while
`current + i·day` is still before the period end — overlaps the event
in the sense `event.start < day-end ∧ day-start < event.end`. -/
theorem oooDayWalk_iff : ∀ (gas : Nat) (e : Event) (current endT : Int),
    (endT - current).toNat ≤ gas →
    (oooDayWalk e current endT = true ↔
      ∃ i : Nat, current + i * dayLength < endT ∧
        e.start < dayFloor current + i * dayLength + dayLength ∧
        dayFloor current + i * dayLength < e.endTime) := by
  intro gas
  induction gas with
  | zero =>
    intro e current endT hgas
    have hend : endT ≤ current := by omega
    rw [oooDayWalk, dif_neg (by omega : ¬ current < endT)]
    simp only [Bool.false_eq_true, false_iff, not_exists]
    intro i hcon
    simp only [dayLength] at hcon
    omega
  | succ n ih =>
    intro e current endT hgas
    rw [oooDayWalk]
    by_cases hlt : current < endT
    · rw [dif_pos hlt]
      dsimp only
      by_cases hov : e.start < dayFloor current + dayLength ∧ dayFloor current < e.endTime
      · rw [if_pos (by simp only [Bool.and_eq_true, decide_eq_true_eq]; exact hov)]
        simp only [true_iff]
        refine ⟨0, by simpa using hlt, ?_, ?_⟩
        · simpa using hov.1
        · simpa using hov.2
      · rw [if_neg (by simp only [Bool.and_eq_true, decide_eq_true_eq]; exact hov)]
        rw [ih e (current + dayLength) endT (by simp only [dayLength] at hgas ⊢; omega)]
        rw [dayFloor_add_day]
        constructor
        · rintro ⟨i, h1, h2, h3⟩
          refine ⟨i + 1, ?_, ?_, ?_⟩
          · simp only [dayLength] at h1 ⊢; push_cast; omega
          · simp only [dayLength] at h2 ⊢; push_cast at h2 ⊢; omega
          · simp only [dayLength] at h3 ⊢; push_cast at h3 ⊢; omega
        · rintro ⟨i, h1, h2, h3⟩
          cases i with
          | zero =>
            exfalso
            simp only [Nat.cast_zero, zero_mul, add_zero] at h2 h3
            exact hov ⟨h2, h3⟩
          | succ i2 =>
            refine ⟨i2, ?_, ?_, ?_⟩
            · simp only [dayLength] at h1 ⊢; push_cast at h1 ⊢; omega
            · simp only [dayLength] at h2 ⊢; push_cast at h2 ⊢; omega
            · simp only [dayLength] at h3 ⊢; push_cast at h3 ⊢; omega
    · rw [dif_neg hlt]
      simp only [Bool.false_eq_true, false_iff, not_exists]
      intro i hcon
      simp only [dayLength] at hcon
      omega

/-- `isEventOnOOODay`, characterized over all periods. -/
theorem isEventOnOOODay_iff (e : Event) (oooPeriods : List OOOPeriod) :
    isEventOnOOODay e oooPeriods = true ↔
      ∃ ooo ∈ oooPeriods, ∃ i : Nat,
        ooo.start + i * dayLength < ooo.endTime ∧
        e.start < dayFloor ooo.start + i * dayLength + dayLength ∧
        dayFloor ooo.start + i * dayLength < e.endTime := by
  simp only [isEventOnOOODay, List.any_eq_true]
  constructor
  · rintro ⟨ooo, hmem, hwalk⟩
    exact ⟨ooo, hmem,
      (oooDayWalk_iff ((ooo.endTime - ooo.start).toNat) e ooo.start ooo.endTime
        (le_refl _)).mp hwalk⟩
  · rintro ⟨ooo, hmem, hex⟩
    exact ⟨ooo, hmem,
      (oooDayWalk_iff ((ooo.endTime - ooo.start).toNat) e ooo.start ooo.endTime
        (le_refl _)).mpr hex⟩

/-- The suppression pass is an order-preserving filter with the
exception predicate. -/
theorem filterOOO_eq_filter :
    ∀ (events : List Event) (oooPeriods : List OOOPeriod) (primaryCalendar : String),
      filterEventsOutsideOOO events oooPeriods primaryCalendar
        = events.filter (fun e => !isEventOnOOODay e oooPeriods
            || (decide (e.calendar.id = primaryCalendar)
                && e.type == EventType.TypeOutOfOffice)) := by
  intro events
  induction events with
  | nil => intro oooPeriods primaryCalendar; rfl
  | cons e rest ih =>
    intro oooPeriods primaryCalendar
    rw [filterEventsOutsideOOO, List.filter_cons]
    by_cases hooo : isEventOnOOODay e oooPeriods = true
    · rw [if_pos hooo]
      by_cases hexc : (decide (e.calendar.id = primaryCalendar)
          && e.type == EventType.TypeOutOfOffice) = true
      · rw [if_pos hexc, ih]
        rw [if_pos (by simp [hooo, hexc])]
      · rw [if_neg hexc, ih]
        rw [if_neg (by simp only [hooo, Bool.not_true, Bool.false_or]; simpa using hexc)]
    · have hooo2 : isEventOnOOODay e oooPeriods = false := by
        rw [← Bool.not_eq_true]; exact hooo
      rw [if_neg hooo, ih]
      rw [if_pos (by simp [hooo2])]

/-! ## C4: smart out-of-office suppression -/

/-- **C4**: the suppression pass removes exactly those events that
overlap some calendar day walked over by an out-of-office period
(walking from the period start one day at a time while still strictly
before the period end, a day overlapping when `event.start < day-end ∧
event.end > day-start`) and that are not the out-of-office event itself
(calendar identity equal to the primary calendar and type
out-of-office); all other events pass through unchanged, in order. -/
theorem c4_ooo_suppression_exact (events : List Event)
    (oooPeriods : List OOOPeriod) (primaryCalendar : String) :
    filterEventsOutsideOOO events oooPeriods primaryCalendar
      = events.filter (fun e => !isEventOnOOODay e oooPeriods
          || (decide (e.calendar.id = primaryCalendar)
              && e.type == EventType.TypeOutOfOffice)) ∧
    ∀ e : Event, isEventOnOOODay e oooPeriods = true ↔
      ∃ ooo ∈ oooPeriods, ∃ i : Nat,
        ooo.start + i * dayLength < ooo.endTime ∧
        e.start < dayFloor ooo.start + i * dayLength + dayLength ∧
        dayFloor ooo.start + i * dayLength < e.endTime :=
  ⟨filterOOO_eq_filter events oooPeriods primaryCalendar,
   fun e => isEventOnOOODay_iff e oooPeriods⟩

end Tsk